import Mathlib

/-!
# Markdown blog server (`main.go`): front matter, file-name metadata, post listing

A shallow embedding of `postHandler` and `listPosts` from `src/main.go`, with the
theorems that settle the specification's claims about them.

Modelling conventions.

* A Go `string` is a `List Char` (`Str`): the sequence of its Unicode code points.
  This is exact for valid UTF-8 text; every separator, prefix and cutset the program
  uses is ASCII, so splitting and trimming by code point and by byte coincide there.
* The collaborators that are not part of the repository are parameters:
  the file tree (`FileSystem`), the result of `os.ReadDir("posts")`, the Markdown converter
  `md.Convert` (`convert`) and the title caser `cases.Title(language.English)` (`caser`).
* An HTTP handler is a function from the request path to the `Response` it writes:
  either `http.Error(msg, status)` or the `PageData` handed to the page template.
-/

namespace Blog

/-- Go `string`, as its sequence of code points. -/
abbrev Str := List Char

/-! ## Go standard library functions used by the program -/

/-- `strings.HasPrefix`. -/
def hasPrefix (s pre : Str) : Bool := pre.isPrefixOf s

/-- `strings.HasSuffix`. -/
def hasSuffix (s suf : Str) : Bool := suf.isSuffixOf s

/-- `strings.TrimPrefix`: `s` without the leading `pre`, or `s` itself when it does not
start with `pre`. -/
def trimPrefix (s pre : Str) : Str :=
  if hasPrefix s pre then s.drop pre.length else s

/-- `strings.TrimSuffix`: `s` without the trailing `suf`, or `s` itself when it does not
end with `suf`. -/
def trimSuffix (s suf : Str) : Str :=
  if hasSuffix s suf then s.take (s.length - suf.length) else s

/-- `unicode.IsSpace`: the Latin-1 cases `\t \n \v \f \r`, space, U+0085, U+00A0, and the
`White_Space` table above Latin-1. -/
def isSpace (c : Char) : Bool :=
  let n := c.toNat
  (9 ≤ n && n ≤ 13) || n == 0x20 || n == 0x85 || n == 0xA0 || n == 0x1680 ||
  (0x2000 ≤ n && n ≤ 0x200A) || n == 0x2028 || n == 0x2029 || n == 0x202F ||
  n == 0x205F || n == 0x3000

/-- `strings.TrimSpace`: leading and trailing white space removed. -/
def trimSpace (s : Str) : Str := (s.dropWhile isSpace).rdropWhile isSpace

/-- `strings.Trim(s, cutset)`: every leading and every trailing code point that occurs in
`cutset` removed. -/
def trim (s cutset : Str) : Str :=
  (s.dropWhile (fun c => cutset.contains c)).rdropWhile (fun c => cutset.contains c)

/-- `unicode.ToLower`. Exact on ASCII and on the two non-ASCII code points whose lower case
is ASCII (U+0130 to `i`, U+212A to `k`); every other non-ASCII code point is left in place
(its real lower case is again non-ASCII, so comparisons with ASCII literals, the only use
the program makes of the result, are unaffected). -/
def toLowerRune (c : Char) : Char :=
  if 'A' ≤ c ∧ c ≤ 'Z' then Char.ofNat (c.toNat + 32)
  else if c.toNat = 0x130 then 'i'
  else if c.toNat = 0x212A then 'k'
  else c

/-- `strings.ToLower`. -/
def toLower (s : Str) : Str := s.map toLowerRune

/-- `strings.Index(s, sep)` followed by the two slices `s[:m]` and `s[m+1:]`, for a one
code point separator: `none` when `sep` does not occur. -/
def cut (sep : Char) : Str → Option (Str × Str)
  | [] => none
  | c :: cs =>
    if c = sep then some ([], cs)
    else match cut sep cs with
      | none => none
      | some (a, b) => some (c :: a, b)

/-- `strings.Count(s, sep)` for a one code point separator. -/
def count (sep : Char) (s : Str) : Nat := s.count sep

/-- The loop of `genSplit`: at most `k` cuts, then the rest of the string as last piece. -/
def splitLoop (sep : Char) : Nat → Str → List Str
  | 0, s => [s]
  | k + 1, s =>
    match cut sep s with
    | none => [s]
    | some (a, b) => a :: splitLoop sep k b

/-- `strings.SplitN(s, sep, n)` for a one code point separator (all call sites pass
`"\n"`, `":"` or `"-"`): `n = 0` gives no piece, `n < 0` all pieces, `n > 0` at most `n`
pieces, the last one holding the unsplit remainder. -/
def splitN (s : Str) (sep : Char) (n : Int) : List Str :=
  if n = 0 then []
  else
    let n₁ : Nat := if n < 0 then count sep s + 1 else n.toNat
    let n₂ : Nat := if n₁ > s.length + 1 then s.length + 1 else n₁
    splitLoop sep (n₂ - 1) s

/-- `strings.Split(s, sep)`, which is `SplitN` with `n = -1`: all the pieces. -/
def split (s : Str) (sep : Char) : List Str := splitN s sep (-1)

/-- `strings.Join(elems, sep)`. -/
def join (elems : List Str) (sep : Str) : Str := sep.intercalate elems

/-- `strings.ReplaceAll(s, old, new)` for one code point `old` and `new`. -/
def replaceAll (s : Str) (old new : Char) : Str :=
  s.map (fun c => if c = old then new else c)

/-- The backwards scan of `filepath.Ext` over the reversed path; `acc` is the text already
passed. -/
def extScan : Str → Str → Str
  | [], _ => []
  | c :: cs, acc =>
    if c = '/' then []
    else if c = '.' then '.' :: acc
    else extScan cs (c :: acc)

/-- `filepath.Ext`: the suffix starting at the last dot of the last path element, empty
when that element has no dot. -/
def filepathExt (path : Str) : Str := extScan path.reverse []

/-- One element of `filepath.Clean` on a relative or rooted path: `st.1` holds the leading
`..` elements that could not be resolved, `st.2` the real elements kept so far. -/
def cleanStep (rooted : Bool) (st : List Str × List Str) (e : Str) : List Str × List Str :=
  if e = [] ∨ e = ".".toList then st
  else if e = "..".toList then
    if st.2 ≠ [] then (st.1, st.2.dropLast)
    else if rooted then st
    else (st.1 ++ [e], st.2)
  else (st.1, st.2 ++ [e])

/-- `filepath.Clean` (Unix): empty and `.` elements dropped, `..` resolved against the
element before it, `.` for an empty result. -/
def filepathClean (path : Str) : Str :=
  if path = [] then ".".toList
  else
    let rooted := hasPrefix path "/".toList
    let st := (splitN path '/' (-1)).foldl (cleanStep rooted) ([], [])
    let body := join (st.1 ++ st.2) "/".toList
    if rooted then '/' :: body
    else if body = [] then ".".toList
    else body

/-- `filepath.Join` (Unix): the elements from the first non-empty one on, joined by `/`
and cleaned; empty when all are empty. -/
def filepathJoin : List Str → Str
  | [] => []
  | e :: es =>
    if e ≠ [] then filepathClean (join (e :: es) "/".toList)
    else filepathJoin es

/-! ## The file tree, as the program sees it -/

/-- What a path names: a regular readable file with its content, or a directory. -/
inductive Node where
  | file (content : Str)
  | dir
  deriving DecidableEq, Repr

/-- The file tree: what each path names, if anything. -/
abbrev FileSystem := Str → Option Node

/-- `os.ReadFile`: the content of a regular file; an error (`none`) when nothing is at
the path or when the path names a directory. -/
def osReadFile (fs : FileSystem) (path : Str) : Option Str :=
  match fs path with
  | some (Node.file content) => some content
  | some Node.dir => none
  | none => none

/-- An `os.DirEntry`: the entry's name and whether it is a directory. -/
structure DirEntry where
  name : Str
  isDir : Bool
  deriving DecidableEq, Repr

/-! ## The program's data -/

/-- `type Post struct`. -/
structure Post where
  Title : Str
  Date : Str
  Author : Str
  Content : Str
  FileName : Str
  deriving DecidableEq, Repr

/-- `type PageData struct`. -/
structure PageData where
  PageTitle : Str
  Title : Str
  Date : Str
  Author : Str
  Posts : List Post
  Body : Str
  deriving DecidableEq, Repr

/-- What a handler writes: `http.Error(w, msg, status)`, or the data with which the page
template is executed. -/
inductive Response where
  | error (msg : Str) (status : Nat)
  | page (data : PageData)
  deriving DecidableEq, Repr

/-- `http.StatusNotFound`. -/
def statusNotFound : Nat := 404

/-- `http.StatusInternalServerError`. -/
def statusInternalServerError : Nat := 500

/-- The not-found outcome of `postHandler`. -/
def notFound : Response := .error "Post not found".toList statusNotFound

/-- The invalid-format outcome of `postHandler`. -/
def invalidFormat : Response :=
  .error "Invalid post filename format".toList statusInternalServerError

/-! ## `postHandler` -/

/-- The search loop `for i := 1; i < len(parts); i++` of `postHandler`, run on
`parts[i:]`: the index of the first line from `i` on that is `---` after trimming, or
`none` (the source's `end == -1`). -/
def findEnd : List Str → Nat → Option Nat
  | [], _ => none
  | l :: ls, i => if trimSpace l = "---".toList then some i else findEnd ls (i + 1)

/-- One round of the loop over `parts[1:end]`: the line is split at its first colon, a line
without colon is passed over, and the value is stored under the keys `author` and `date`.
The `case "title":` of the source has an empty body (its comment reads `optional: override
title`, but nothing is assigned), so that key falls through like any other. The state is
the pair of local variables `(author, date)`. -/
def frontMatterLine (st : Str × Str) (l : Str) : Str × Str :=
  match splitN l ':' 2 with
  | [k, v] =>
    let key := trimSpace k
    let val := trim (trimSpace v) "\"".toList
    if toLower key = "author".toList then (val, st.2)
    else if toLower key = "date".toList then (st.1, val)
    else st
  | _ => st

/-- The guard and the search loop of the front matter block: the index `end` of the
closing delimiter line among `parts`, or `none` when the block is not entered
(`contentStr` does not start with `---`) or the loop leaves `end == -1`. -/
def frontMatterEnd (contentStr : Str) : Option Nat :=
  if hasPrefix contentStr "---".toList then
    findEnd ((splitN contentStr '\n' (-1)).drop 1) 1
  else none

/-- The front matter block of `postHandler` (source lines 89 to 119): the local variables
`author`, `date` and `contentStr` after it. -/
def parseFrontMatter (contentStr : Str) : Str × Str × Str :=
  match frontMatterEnd contentStr with
  | some e =>
    let parts := splitN contentStr '\n' (-1)
    let st := ((parts.take e).drop 1).foldl frontMatterLine ([], [])
    (st.1, st.2, join (parts.drop (e + 1)) "\n".toList)
  | none => ([], [], contentStr)

/-- `postHandler`, as a function of `r.URL.Path`. The `date` taken from the front matter
(`fm.2.1`, assigned at source line 112) is overwritten at line 134 before any use. -/
def postHandler (fs : FileSystem) (convert : Str → Except Str Str) (caser : Str → Str)
    (urlPath : Str) : Response :=
  let fileName := trimPrefix urlPath "/post/".toList
  match osReadFile fs (filepathJoin ["posts".toList, fileName]) with
  | none => .error "Post not found".toList statusNotFound
  | some contentStr =>
    let fm := parseFrontMatter contentStr
    let author := fm.1
    let contentStr := fm.2.2
    match convert contentStr with
    | .error err => .error err statusInternalServerError
    | .ok buf =>
      let baseName := trimSuffix fileName (filepathExt fileName)
      match splitN baseName '-' 4 with
      | [p0, p1, p2, p3] =>
        let date := p0 ++ "-".toList ++ p1 ++ "-".toList ++ p2
        let title := caser (replaceAll p3 '-' ' ')
        let post : Post :=
          { Title := title, Date := date, Author := author, Content := buf,
            FileName := fileName }
        .page
          { PageTitle := "Academic Blog".toList, Title := post.Title, Date := post.Date,
            Author := post.Author, Posts := [], Body := post.Content }
      | _ => .error "Invalid post filename format".toList statusInternalServerError

/-! ## `listPosts` -/

/-- The loop `for _, f := range files` of `listPosts`; `posts` is the slice built so far. -/
def listPostsLoop (caser : Str → Str) : List DirEntry → List Post → List Post
  | [], posts => posts
  | f :: files, posts =>
    if filepathExt f.name = ".md".toList then
      let baseName := trimSuffix f.name (filepathExt f.name)
      match splitN baseName '-' 4 with
      | [p0, p1, p2, p3] =>
        let date := p0 ++ "-".toList ++ p1 ++ "-".toList ++ p2
        let title := caser (replaceAll p3 '-' ' ')
        listPostsLoop caser files
          (posts ++ [{ Title := title, Date := date, Author := [], Content := [],
                       FileName := f.name }])
      | _ => listPostsLoop caser files posts
    else listPostsLoop caser files posts

/-- What one round of the loop of `listPosts` appends for the entry `f`. -/
def entryPosts (caser : Str → Str) (f : DirEntry) : List Post := listPostsLoop caser [f] []

/-- `listPosts`; `readDir` is the result of `os.ReadDir("posts")`. -/
def listPosts (caser : Str → Str) (readDir : Except Str (List DirEntry)) :
    Except Str (List Post) :=
  match readDir with
  | .error err => .error err
  | .ok files => .ok (listPostsLoop caser files [])

/-- `indexHandler`, as the response it writes. -/
def indexHandler (caser : Str → Str) (readDir : Except Str (List DirEntry)) : Response :=
  match listPosts caser readDir with
  | .error err => .error err statusInternalServerError
  | .ok posts =>
    .page
      { PageTitle := "Academic Blog".toList, Title := [], Date := [], Author := [],
        Posts := posts, Body := [] }

/-! ## Definitions that follow the specification's words -/

/-- Modelled from the spec: the title caser `cases.Title(language.English)`, of the
external package `golang.org/x/text/cases`, after the words of section 4.1, "first letter
of each word capitalized". The model is a stand-in for lower-case ASCII words separated by
single spaces, the shape of the slugs in the concrete instances below, and nothing more:
it upper-cases ASCII letters only, breaks words at spaces only and leaves the rest of a
word as it is, where the package is Unicode-aware, has its own word breaks and lower-cases
the rest. `up` tells whether the next code point starts a word. Every theorem takes the
caser as a parameter; this model only instantiates it on concrete file names. -/
def titleWords : Bool → Str → Str
  | _, [] => []
  | up, c :: cs =>
    if c = ' ' then c :: titleWords true cs
    else (if up then c.toUpper else c) :: titleWords false cs

/-- Modelled from the spec: `caser.String`, see `titleWords`. -/
def titleCase (s : Str) : Str := titleWords true s

/-- The file name pattern of section 6, `YYYY-MM-DD-<slug>.md`: three date groups and a
slug, joined by hyphens, with the extension `.md`. -/
def datedName (y m d slug : Str) : Str :=
  y ++ "-".toList ++ m ++ "-".toList ++ d ++ "-".toList ++ slug ++ ".md".toList

/-- The file content of section 6: a line `---`, the lines of the front matter block, a
closing line `---`, and the Markdown body, each on lines of its own. -/
def frontMatterFile (block : List Str) (body : Str) : Str :=
  join ("---".toList :: (block ++ ["---".toList, body])) "\n".toList

/-- The front matter line `key: "value"`, the value in double quotes. -/
def quotedLine (key value : Str) : Str := key ++ ": ".toList ++ ['"'] ++ value ++ ['"']

/-- A name that `listPosts` turns into a summary: extension exactly `.md` and at least three
hyphens in the extension-stripped name, so that the split at the first three hyphens
gives 4 segments. -/
def hasPostName (name : Str) : Bool :=
  filepathExt name == ".md".toList && decide (3 ≤ count '-' (trimSuffix name ".md".toList))

/-- The specification's reading of the filter of `listPosts` (section 4.1, "ignores
subdirectories"): the entry is a file, not a directory, and has a post name. The program
does not look at the kind of the entry, see `listPostsLoop`. -/
def isListedFile (f : DirEntry) : Bool := !f.isDir && hasPostName f.name

/-- The value `core` is what is left of `v` after the white space around it and then every
double quote at either end are taken away: `v` is white space, double quotes, `core`,
double quotes, white space, where the part between the white space neither starts nor ends
with white space, and `core` neither starts nor ends with a double quote. -/
def StrippedValue (v core : Str) : Prop :=
  ∃ ws₁ q₁ q₂ ws₂ : Str, v = ws₁ ++ ((q₁ ++ (core ++ q₂)) ++ ws₂) ∧
    (∀ c ∈ ws₁, isSpace c = true) ∧ (∀ c ∈ ws₂, isSpace c = true) ∧
    (∀ c ∈ q₁, c = '"') ∧ (∀ c ∈ q₂, c = '"') ∧
    (∀ c, (q₁ ++ (core ++ q₂)).head? = some c → isSpace c = false) ∧
    (∀ c, (q₁ ++ (core ++ q₂)).getLast? = some c → isSpace c = false) ∧
    core.head? ≠ some '"' ∧ core.getLast? ≠ some '"'

/-- The specification's reading of the quote stripping of front matter values (section 4.2,
"one layer of surrounding double-quotes stripped if present"): one leading and one trailing
double quote removed when both are there. The program calls `strings.Trim`, see `trim`. -/
def stripOneLayer (s : Str) : Str :=
  if 2 ≤ s.length ∧ s.head? = some '"' ∧ s.getLast? = some '"' then (s.drop 1).dropLast
  else s

/-- The specification's reading of the front matter guard (section 4.2, "content begins
with a line consisting of exactly `---`"): the first of the lines of the content is `---`.
The program calls `strings.HasPrefix`, see `frontMatterEnd`. -/
def firstLineIsDelimiter (contentStr : Str) : Bool :=
  (split contentStr '\n').head? == some "---".toList

/-! ## Sample data for the concrete instances -/

/-- A file tree: the post `2024-01-15-my-first-post.md` with front matter, a post with a
short name, and a directory. -/
def sampleTree : FileSystem := fun path =>
  if path = "posts/2024-01-15-my-first-post.md".toList then
    some (Node.file
      "---\ntitle: \"Notes\"\nauthor: \"Ada Lovelace\"\ndate: 1999-12-31\n---\n# Hello\n".toList)
  else if path = "posts/drafts".toList then some Node.dir
  else if path = "posts/2024-01.md".toList then some (Node.file "text".toList)
  else none

/-- A file tree in which `2024-01-15-my-first-post.md` has no front matter. -/
def plainTree : FileSystem := fun path =>
  if path = "posts/2024-01-15-my-first-post.md".toList then
    some (Node.file "---\nabout dashes\n".toList)
  else none

/-- A file tree in which `2024-01-15-my-first-post.md` has another front matter, with its
own `title:` and `date:` lines, and another body. -/
def otherTree : FileSystem := fun path =>
  if path = "posts/2024-01-15-my-first-post.md".toList then
    some (Node.file "---\ntitle: \"Other\"\ndate: 2001-02-03\n---\nBye\n".toList)
  else none

/-- A converter that succeeds on every input and wraps it in a paragraph. -/
def sampleConvert : Str → Except Str Str := fun s => .ok ("<p>".toList ++ s ++ "</p>".toList)

/-! ## Splitting and joining -/

theorem cut_eq_some {sep : Char} {s a b : Str} :
    cut sep s = some (a, b) ↔ (s = a ++ sep :: b ∧ sep ∉ a) := by
  induction s generalizing a b with
  | nil => simp [cut]
  | cons c cs ih =>
    unfold cut
    by_cases h : c = sep
    · subst h
      simp only [if_true, Option.some.injEq, Prod.mk.injEq]
      constructor
      · rintro ⟨rfl, rfl⟩; simp
      · rintro ⟨h1, h2⟩
        cases a with
        | nil => simp at h1; exact ⟨rfl, h1⟩
        | cons x xs =>
          simp at h1 h2
          exact absurd h1.1 h2.1
    · simp only [if_neg h]
      cases hc : cut sep cs with
      | none =>
        simp only [false_iff, reduceCtorEq]
        rintro ⟨h1, h2⟩
        cases a with
        | nil => simp at h1; exact h h1.1
        | cons x xs =>
          simp at h1 h2
          have := (ih (a := xs) (b := b)).2 ⟨h1.2, h2.2⟩
          rw [hc] at this; cases this
      | some p =>
        obtain ⟨a1, b1⟩ := p
        have h0 := (ih (a := a1) (b := b1)).1 hc
        simp only [Option.some.injEq, Prod.mk.injEq]
        constructor
        · rintro ⟨rfl, rfl⟩
          refine ⟨by simp [h0.1], ?_⟩
          simp [h0.2]; exact fun e => h e.symm
        · rintro ⟨h1, h2⟩
          cases a with
          | nil => simp at h1; exact absurd h1.1 h
          | cons x xs =>
            simp at h1 h2
            have := (ih (a := xs) (b := b)).2 ⟨h1.2, h2.2⟩
            rw [hc] at this
            simp at this
            exact ⟨by rw [h1.1, this.1], this.2⟩

theorem cut_eq_none {sep : Char} {s : Str} : cut sep s = none ↔ sep ∉ s := by
  induction s with
  | nil => simp [cut]
  | cons c cs ih =>
    unfold cut
    by_cases h : c = sep
    · simp [h]
    · simp only [if_neg h]
      cases hc : cut sep cs with
      | none => simp [ih.1 hc]; exact fun e => h e.symm
      | some p =>
        simp
        intro _
        by_contra hn
        rw [ih.2 hn] at hc; cases hc

theorem cut_append {sep : Char} {a b : Str} (h : sep ∉ a) :
    cut sep (a ++ sep :: b) = some (a, b) := cut_eq_some.2 ⟨rfl, h⟩

theorem count_append_sep {sep : Char} {a b : Str} (h : sep ∉ a) :
    count sep (a ++ sep :: b) = count sep b + 1 := by
  simp [count, List.count_eq_zero_of_not_mem h]

theorem count_le_length (sep : Char) (s : Str) : count sep s ≤ s.length :=
  List.count_le_length _ _

theorem splitLoop_not_mem {sep : Char} {s : Str} (k : Nat) (h : sep ∉ s) :
    splitLoop sep k s = [s] := by
  cases k with
  | zero => rfl
  | succ k => simp [splitLoop, cut_eq_none.2 h]

theorem splitLoop_cons {sep : Char} {a b : Str} (k : Nat) (h : sep ∉ a) :
    splitLoop sep (k + 1) (a ++ sep :: b) = a :: splitLoop sep k b := by
  simp [splitLoop, cut_append h]

theorem splitLoop_length (sep : Char) (k : Nat) (s : Str) :
    (splitLoop sep k s).length = min k (count sep s) + 1 := by
  induction k generalizing s with
  | zero => simp [splitLoop]
  | succ k ih =>
    cases hc : cut sep s with
    | none =>
      have := cut_eq_none.1 hc
      simp [splitLoop, hc, count, List.count_eq_zero_of_not_mem this]
    | some p =>
      obtain ⟨a, b⟩ := p
      obtain ⟨rfl, ha⟩ := cut_eq_some.1 hc
      simp only [splitLoop, hc, List.length_cons, ih, count_append_sep ha]
      omega

theorem join_cons_cons (sep x y : Str) (ys : List Str) :
    join (x :: y :: ys) sep = x ++ sep ++ join (y :: ys) sep := by
  simp [join, List.intercalate, List.intersperse]

theorem join_singleton (sep x : Str) : join [x] sep = x := by
  simp [join, List.intercalate, List.intersperse]

theorem splitLoop_ne_nil (sep : Char) (k : Nat) (s : Str) : splitLoop sep k s ≠ [] := by
  intro h
  have := splitLoop_length sep k s
  rw [h] at this; simp at this

theorem join_splitLoop (sep : Char) (k : Nat) (s : Str) :
    join (splitLoop sep k s) [sep] = s := by
  induction k generalizing s with
  | zero => simp [splitLoop, join_singleton]
  | succ k ih =>
    cases hc : cut sep s with
    | none => simp [splitLoop, hc, join_singleton]
    | some p =>
      obtain ⟨a, b⟩ := p
      obtain ⟨rfl, ha⟩ := cut_eq_some.1 hc
      simp only [splitLoop, hc]
      cases hs : splitLoop sep k b with
      | nil => exact absurd hs (splitLoop_ne_nil _ _ _)
      | cons y ys =>
        rw [join_cons_cons, ← hs, ih]; simp

theorem splitN_pos (s : Str) (sep : Char) (n : Nat) (hn : 0 < n) :
    splitN s sep (n : Int) = splitLoop sep (min n (s.length + 1) - 1) s := by
  unfold splitN
  have h1 : ¬ ((n : Int) = 0) := by omega
  have h2 : ¬ ((n : Int) < 0) := by omega
  simp only [h1, h2, if_false, Int.toNat_ofNat]
  by_cases h : n > s.length + 1
  · simp only [h, if_true]; congr 1; omega
  · simp only [h, if_false]; congr 1; omega

theorem splitLoop_of_count_le (sep : Char) (k : Nat) (s : Str) (h : count sep s ≤ k) :
    splitLoop sep k s = splitLoop sep (count sep s) s := by
  induction k generalizing s with
  | zero =>
    have : count sep s = 0 := by omega
    rw [this]
  | succ k ih =>
    cases hc : cut sep s with
    | none =>
      have hm := cut_eq_none.1 hc
      rw [splitLoop_not_mem _ hm, splitLoop_not_mem _ hm]
    | some p =>
      obtain ⟨a, b⟩ := p
      obtain ⟨rfl, ha⟩ := cut_eq_some.1 hc
      rw [count_append_sep ha] at h ⊢
      rw [splitLoop_cons _ ha, splitLoop_cons _ ha]
      rw [ih b (by omega)]

theorem split_eq (s : Str) (sep : Char) : split s sep = splitLoop sep (count sep s) s := by
  unfold split splitN
  have := count_le_length sep s
  simp only [show ¬ ((-1 : Int) = 0) by omega, show ((-1 : Int) < 0) by omega, if_true, if_false]
  have h : ¬ (count sep s + 1 > s.length + 1) := by omega
  simp only [h, if_false]
  rfl

theorem split_length (s : Str) (sep : Char) : (split s sep).length = count sep s + 1 := by
  rw [split_eq, splitLoop_length]; simp

theorem split_not_mem {s : Str} {sep : Char} (h : sep ∉ s) : split s sep = [s] := by
  rw [split_eq, splitLoop_not_mem _ h]

theorem split_cons {a b : Str} {sep : Char} (h : sep ∉ a) :
    split (a ++ sep :: b) sep = a :: split b sep := by
  rw [split_eq, split_eq, count_append_sep h, splitLoop_cons _ h]

theorem join_split (s : Str) (sep : Char) : join (split s sep) [sep] = s := by
  rw [split_eq, join_splitLoop]

theorem splitN_four_length (s : Str) (sep : Char) :
    (splitN s sep 4).length = min 3 (count sep s) + 1 := by
  have := splitN_pos s sep 4 (by omega)
  simp only [Nat.cast_ofNat] at this
  rw [this, splitLoop_length]
  have := count_le_length sep s
  omega

theorem splitN_four {a b c : Str} (rest : Str) {sep : Char} (ha : sep ∉ a) (hb : sep ∉ b)
    (hc : sep ∉ c) :
    splitN (a ++ sep :: (b ++ sep :: (c ++ sep :: rest))) sep 4 = [a, b, c, rest] := by
  have := splitN_pos (a ++ sep :: (b ++ sep :: (c ++ sep :: rest))) sep 4 (by omega)
  simp only [Nat.cast_ofNat] at this
  rw [this]
  have hl : min 4 ((a ++ sep :: (b ++ sep :: (c ++ sep :: rest))).length + 1) - 1 = 3 := by
    simp only [List.length_append, List.length_cons]; omega
  rw [hl, splitLoop_cons _ ha, splitLoop_cons _ hb, splitLoop_cons _ hc]
  rfl

theorem exists_cut {s : Str} {sep : Char} (h : 1 ≤ count sep s) :
    ∃ a b, s = a ++ sep :: b ∧ sep ∉ a := by
  cases hc : cut sep s with
  | none =>
    have := cut_eq_none.1 hc
    simp [count, List.count_eq_zero_of_not_mem this] at h
  | some p => exact ⟨p.1, p.2, cut_eq_some.1 hc⟩

theorem exists_three_cuts {s : Str} {sep : Char} (h : 3 ≤ count sep s) :
    ∃ a b c rest, s = a ++ sep :: (b ++ sep :: (c ++ sep :: rest)) ∧
      sep ∉ a ∧ sep ∉ b ∧ sep ∉ c := by
  obtain ⟨a, s1, rfl, ha⟩ := exists_cut (show 1 ≤ count sep s by omega)
  rw [count_append_sep ha] at h
  obtain ⟨b, s2, rfl, hb⟩ := exists_cut (show 1 ≤ count sep s1 by omega)
  rw [count_append_sep hb] at h
  obtain ⟨c, s3, rfl, hc⟩ := exists_cut (show 1 ≤ count sep s2 by omega)
  exact ⟨a, b, c, s3, rfl, ha, hb, hc⟩

theorem splitN_two_cons {k v : Str} {sep : Char} (h : sep ∉ k) :
    splitN (k ++ sep :: v) sep 2 = [k, v] := by
  have := splitN_pos (k ++ sep :: v) sep 2 (by omega)
  simp only [Nat.cast_ofNat] at this
  rw [this]
  have hl : min 2 ((k ++ sep :: v).length + 1) - 1 = 1 := by
    simp only [List.length_append, List.length_cons]; omega
  rw [hl, splitLoop_cons _ h]
  rfl

theorem splitN_two_not_mem {l : Str} {sep : Char} (h : sep ∉ l) :
    splitN l sep 2 = [l] := by
  have := splitN_pos l sep 2 (by omega)
  simp only [Nat.cast_ofNat] at this
  rw [this, splitLoop_not_mem _ h]

/-! ## Extensions, prefixes and suffixes -/

theorem filepathExt_md (s : Str) : filepathExt (s ++ ".md".toList) = ".md".toList := by
  simp [filepathExt, extScan]

theorem trimSuffix_append (s suf : Str) : trimSuffix (s ++ suf) suf = s := by
  have : hasSuffix (s ++ suf) suf = true := by
    unfold hasSuffix
    rw [List.isSuffixOf_iff_suffix]
    exact List.suffix_append s suf
  simp [trimSuffix, this]

theorem trimPrefix_append (s pre : Str) : trimPrefix (pre ++ s) pre = s := by
  have : hasPrefix (pre ++ s) pre = true := by
    unfold hasPrefix
    rw [List.isPrefixOf_iff_prefix]
    exact List.prefix_append pre s
  simp [trimPrefix, this]

/-! ## Trimming -/

theorem dropWhile_append_all {p : Char → Bool} {l : Str} (r : Str) (h : ∀ c ∈ l, p c = true) :
    (l ++ r).dropWhile p = r.dropWhile p := by
  induction l with
  | nil => rfl
  | cons x xs ih =>
    have hx := h x (List.mem_cons_self _ _)
    simp only [List.cons_append, List.dropWhile_cons, hx, if_true]
    exact ih (fun c hc => h c (List.mem_cons_of_mem _ hc))

theorem dropWhile_all {p : Char → Bool} {l : Str} (h : ∀ c ∈ l, p c = true) :
    l.dropWhile p = [] := by
  have := dropWhile_append_all (p := p) [] h
  simpa using this

theorem dropWhile_head {p : Char → Bool} {m : Str}
    (h : ∀ c, m.head? = some c → p c = false) : m.dropWhile p = m := by
  cases m with
  | nil => rfl
  | cons x xs => simp [List.dropWhile_cons, h x rfl]

theorem rdropWhile_append_all {p : Char → Bool} (m : Str) {r : Str}
    (h : ∀ c ∈ r, p c = true) : (m ++ r).rdropWhile p = m.rdropWhile p := by
  unfold List.rdropWhile
  rw [List.reverse_append, dropWhile_append_all _ (fun c hc => h c (List.mem_reverse.1 hc))]

theorem rdropWhile_last {p : Char → Bool} {m : Str}
    (h : ∀ c, m.getLast? = some c → p c = false) : m.rdropWhile p = m := by
  unfold List.rdropWhile
  rw [dropWhile_head, List.reverse_reverse]
  intro c hc
  apply h
  rw [List.getLast?_eq_head?_reverse]
  exact hc

/-- Peeling a string: a run satisfying `p`, a middle that neither starts nor ends with
`p`, a run satisfying `p`. -/
theorem peel {p : Char → Bool} {l m r : Str} (hl : ∀ c ∈ l, p c = true)
    (hr : ∀ c ∈ r, p c = true) (hh : ∀ c, m.head? = some c → p c = false)
    (ht : ∀ c, m.getLast? = some c → p c = false) :
    ((l ++ (m ++ r)).dropWhile p).rdropWhile p = m := by
  rw [dropWhile_append_all _ hl]
  cases m with
  | nil =>
    simp only [List.nil_append]
    rw [dropWhile_all hr]; rfl
  | cons x xs =>
    have : ((x :: xs) ++ r).dropWhile p = (x :: xs) ++ r := by
      apply dropWhile_head
      intro c hc
      exact hh c (by simpa using hc)
    rw [this, rdropWhile_append_all _ hr, rdropWhile_last ht]

theorem trimSpace_peel {l m r : Str} (hl : ∀ c ∈ l, isSpace c = true)
    (hr : ∀ c ∈ r, isSpace c = true) (hh : ∀ c, m.head? = some c → isSpace c = false)
    (ht : ∀ c, m.getLast? = some c → isSpace c = false) :
    trimSpace (l ++ (m ++ r)) = m := peel hl hr hh ht

theorem trim_quote_peel {l m r : Str} (hl : ∀ c ∈ l, c = '"')
    (hr : ∀ c ∈ r, c = '"') (hh : m.head? ≠ some '"')
    (ht : m.getLast? ≠ some '"') :
    trim (l ++ (m ++ r)) ['"'] = m := by
  unfold trim
  apply peel
  · intro c hc; simp [hl c hc]
  · intro c hc; simp [hr c hc]
  · intro c hc
    have : c ≠ '"' := fun e => hh (e ▸ hc)
    simp [this]
  · intro c hc
    have : c ≠ '"' := fun e => ht (e ▸ hc)
    simp [this]

/-! ## One front matter line -/

theorem frontMatterLine_no_colon (st : Str × Str) {l : Str} (h : ':' ∉ l) :
    frontMatterLine st l = st := by
  simp [frontMatterLine, splitN_two_not_mem h]

theorem frontMatterLine_author (st : Str × Str) {k v : Str} (h : ':' ∉ k)
    (hk : toLower (trimSpace k) = "author".toList) :
    frontMatterLine st (k ++ ':' :: v) = (trim (trimSpace v) ['"'], st.2) := by
  simp [frontMatterLine, splitN_two_cons h, hk]

theorem frontMatterLine_date (st : Str × Str) {k v : Str} (h : ':' ∉ k)
    (hk : toLower (trimSpace k) = "date".toList) :
    frontMatterLine st (k ++ ':' :: v) = (st.1, trim (trimSpace v) ['"']) := by
  simp [frontMatterLine, splitN_two_cons h, hk]

theorem frontMatterLine_other (st : Str × Str) {k v : Str} (h : ':' ∉ k)
    (hk : toLower (trimSpace k) ≠ "author".toList)
    (hk2 : toLower (trimSpace k) ≠ "date".toList) :
    frontMatterLine st (k ++ ':' :: v) = st := by
  have h1 : ¬ (List.map toLowerRune (trimSpace k) = ['a', 'u', 't', 'h', 'o', 'r']) := hk
  have h2 : ¬ (List.map toLowerRune (trimSpace k) = ['d', 'a', 't', 'e']) := hk2
  simp [frontMatterLine, splitN_two_cons h, toLower, h1, h2]

theorem frontMatterLine_fst {l : Str}
    (h : ∀ k v, l = k ++ ':' :: v → ':' ∉ k → toLower (trimSpace k) ≠ "author".toList)
    (st : Str × Str) : (frontMatterLine st l).1 = st.1 := by
  cases hc : cut ':' l with
  | none => rw [frontMatterLine_no_colon st (cut_eq_none.1 hc)]
  | some p =>
    obtain ⟨k, v⟩ := p
    obtain ⟨rfl, hk⟩ := cut_eq_some.1 hc
    have hna := h k v rfl hk
    by_cases hd : toLower (trimSpace k) = "date".toList
    · rw [frontMatterLine_date st hk hd]
    · rw [frontMatterLine_other st hk hna hd]

theorem foldl_frontMatterLine_fst {ls : List Str}
    (h : ∀ l ∈ ls, ∀ k v, l = k ++ ':' :: v → ':' ∉ k →
      toLower (trimSpace k) ≠ "author".toList)
    (st : Str × Str) : (ls.foldl frontMatterLine st).1 = st.1 := by
  induction ls generalizing st with
  | nil => rfl
  | cons l ls ih =>
    simp only [List.foldl_cons]
    rw [ih (fun l hl => h l (List.mem_cons_of_mem _ hl))]
    exact frontMatterLine_fst (h l (List.mem_cons_self _ _)) st

/-! ## The closing delimiter and the lines of a file -/

theorem findEnd_append {xs : List Str} (ys : List Str) (i : Nat)
    (h : ∀ l ∈ xs, trimSpace l ≠ "---".toList) :
    findEnd (xs ++ ys) i = findEnd ys (i + xs.length) := by
  induction xs generalizing i with
  | nil => rfl
  | cons x xs ih =>
    have hx := h x (List.mem_cons_self _ _)
    have e1 : findEnd (x :: xs ++ ys) i = findEnd (xs ++ ys) (i + 1) := by
      simp only [List.cons_append, findEnd, if_neg hx]
      rfl
    rw [e1, ih (i + 1) (fun l hl => h l (List.mem_cons_of_mem _ hl)), List.length_cons]
    congr 1; omega

theorem findEnd_none {xs : List Str} (i : Nat)
    (h : ∀ l ∈ xs, trimSpace l ≠ "---".toList) : findEnd xs i = none := by
  have := findEnd_append [] i h
  simpa [findEnd] using this

theorem findEnd_hit {l : Str} (ls : List Str) (i : Nat) (h : trimSpace l = "---".toList) :
    findEnd (l :: ls) i = some i := by
  simp only [findEnd, if_pos h]

theorem findEnd_some_iff (ls : List Str) (i e : Nat) :
    findEnd ls i = some e ↔
      i ≤ e ∧ (∃ l, ls[e - i]? = some l ∧ trimSpace l = "---".toList) ∧
        ∀ j l, j < e - i → ls[j]? = some l → trimSpace l ≠ "---".toList := by
  induction ls generalizing i with
  | nil => simp [findEnd]
  | cons x xs ih =>
    unfold findEnd
    by_cases hx : trimSpace x = "---".toList
    · simp only [if_pos hx, Option.some.injEq]
      constructor
      · rintro rfl
        refine ⟨le_refl _, ⟨x, by simp, hx⟩, ?_⟩
        intro j l hj; omega
      · rintro ⟨h1, _, h3⟩
        by_contra hne
        have hpos : 0 < e - i := by omega
        exact h3 0 x hpos (by simp) hx
    · simp only [if_neg hx]
      rw [ih (i + 1)]
      constructor
      · rintro ⟨h1, ⟨l, h2, h3⟩, h4⟩
        refine ⟨by omega, ⟨l, ?_, h3⟩, ?_⟩
        · have : e - i = (e - (i + 1)) + 1 := by omega
          rw [this, List.getElem?_cons_succ]; exact h2
        · intro j l' hj hl'
          cases j with
          | zero => simp at hl'; rw [← hl']; exact hx
          | succ j =>
            rw [List.getElem?_cons_succ] at hl'
            exact h4 j l' (by omega) hl'
      · rintro ⟨h1, ⟨l, h2, h3⟩, h4⟩
        have hne : e ≠ i := by
          rintro rfl
          simp at h2
          rw [h2] at hx; exact hx h3
        have he : e - i = (e - (i + 1)) + 1 := by omega
        refine ⟨by omega, ⟨l, ?_, h3⟩, ?_⟩
        · rw [he, List.getElem?_cons_succ] at h2; exact h2
        · intro j l' hj hl'
          exact h4 (j + 1) l' (by omega) (by rw [List.getElem?_cons_succ]; exact hl')

theorem join_append_singleton {ls : List Str} (body sep : Str) (h : ls ≠ []) :
    join (ls ++ [body]) sep = join ls sep ++ sep ++ body := by
  induction ls with
  | nil => exact absurd rfl h
  | cons x xs ih =>
    cases xs with
    | nil => simp [join_cons_cons, join_singleton]
    | cons y ys =>
      have := ih (by simp)
      simp only [List.cons_append] at this ⊢
      rw [join_cons_cons, this, join_cons_cons]
      simp

theorem split_join_append {ls : List Str} (body : Str) (sep : Char)
    (h : ∀ l ∈ ls, sep ∉ l) :
    split (join (ls ++ [body]) [sep]) sep = ls ++ split body sep := by
  induction ls with
  | nil => simp [join_singleton]
  | cons x xs ih =>
    have hx := h x (List.mem_cons_self _ _)
    have hxs := ih (fun l hl => h l (List.mem_cons_of_mem _ hl))
    have : join ((x :: xs) ++ [body]) [sep] = x ++ sep :: join (xs ++ [body]) [sep] := by
      cases xs with
      | nil => simp [join_cons_cons]
      | cons y ys => simp [join_cons_cons]
    rw [this, split_cons hx, hxs]; rfl

theorem hasPrefix_append (pre s : Str) : hasPrefix (pre ++ s) pre = true := by
  unfold hasPrefix
  rw [List.isPrefixOf_iff_prefix]
  exact List.prefix_append pre s

theorem parseFrontMatter_none {content : Str} (h : frontMatterEnd content = none) :
    parseFrontMatter content = ([], [], content) := by
  simp [parseFrontMatter, h]

theorem parseFrontMatter_some {content : Str} {e : Nat}
    (h : frontMatterEnd content = some e) :
    parseFrontMatter content =
      (((((split content '\n').take e).drop 1).foldl frontMatterLine ([], [])).1,
       ((((split content '\n').take e).drop 1).foldl frontMatterLine ([], [])).2,
       join ((split content '\n').drop (e + 1)) ['\n']) := by
  simp [parseFrontMatter, h, split]

/-! ## The key `author` in any letter case -/

theorem author_letter_facts : ∀ x ∈ "author".toList, ∀ c : Char, (c = x ∨ c = x.toUpper) →
    toLowerRune c = x ∧ isSpace c = false ∧ c ≠ ':' := by
  intro x hx c hc
  simp only [String.toList, List.mem_cons, List.mem_singleton, List.not_mem_nil, or_false] at hx
  rcases hx with rfl | rfl | rfl | rfl | rfl | rfl <;> rcases hc with rfl | rfl <;> decide

theorem forall₂_letters {k t : Str}
    (h : List.Forall₂ (fun c x => c = x ∨ c = x.toUpper) k t)
    (hf : ∀ x ∈ t, ∀ c : Char, (c = x ∨ c = x.toUpper) →
      toLowerRune c = x ∧ isSpace c = false ∧ c ≠ ':') :
    toLower k = t ∧ ∀ c ∈ k, isSpace c = false ∧ c ≠ ':' := by
  induction h with
  | nil => simp [toLower]
  | @cons c x k t hcx _ ih =>
    have hx := hf x (List.mem_cons_self _ _) c hcx
    have := ih (fun y hy => hf y (List.mem_cons_of_mem _ hy))
    refine ⟨?_, ?_⟩
    · simp only [toLower, List.map_cons, hx.1]
      exact congrArg _ this.1
    · intro d hd
      rcases List.mem_cons.1 hd with rfl | hd
      · exact hx.2
      · exact this.2 d hd

theorem trimSpace_of_no_space {k : Str} (h : ∀ c ∈ k, isSpace c = false) :
    trimSpace k = k := by
  unfold trimSpace
  rw [dropWhile_head, rdropWhile_last]
  · intro c hc; exact h c (List.mem_of_mem_getLast? hc)
  · intro c hc; exact h c (List.mem_of_mem_head? hc)

theorem author_key {k : Str}
    (h : List.Forall₂ (fun c x => c = x ∨ c = x.toUpper) k "author".toList) :
    ':' ∉ k ∧ toLower (trimSpace k) = "author".toList := by
  obtain ⟨h1, h2⟩ := forall₂_letters h author_letter_facts
  refine ⟨fun hm => (h2 _ hm).2 rfl, ?_⟩
  rw [trimSpace_of_no_space (fun c hc => (h2 c hc).1), h1]

/-! ## The loop of `listPosts` -/

theorem listPostsLoop_cons (caser : Str → Str) (f : DirEntry) (files : List DirEntry)
    (acc : List Post) :
    listPostsLoop caser (f :: files) acc = listPostsLoop caser files (acc ++ entryPosts caser f) := by
  unfold entryPosts
  simp only [listPostsLoop]
  split
  · split <;> simp
  · simp

theorem listPostsLoop_acc (caser : Str → Str) (files : List DirEntry) (acc : List Post) :
    listPostsLoop caser files acc = acc ++ listPostsLoop caser files [] := by
  induction files generalizing acc with
  | nil => simp [listPostsLoop]
  | cons f files ih =>
    rw [listPostsLoop_cons, listPostsLoop_cons caser f files [], ih,
      ih ([] ++ entryPosts caser f)]
    simp

theorem listPostsLoop_append (caser : Str → Str) (xs ys : List DirEntry) (acc : List Post) :
    listPostsLoop caser (xs ++ ys) acc = listPostsLoop caser ys (listPostsLoop caser xs acc) := by
  induction xs generalizing acc with
  | nil => simp [listPostsLoop]
  | cons f xs ih => rw [List.cons_append, listPostsLoop_cons, ih, ← listPostsLoop_cons]

theorem entryPosts_not_md (caser : Str → Str) {f : DirEntry}
    (h : filepathExt f.name ≠ ".md".toList) : entryPosts caser f = [] := by
  unfold entryPosts
  simp only [listPostsLoop, if_neg h]

theorem entryPosts_few (caser : Str → Str) {f : DirEntry}
    (h : count '-' (trimSuffix f.name (filepathExt f.name)) < 3) :
    entryPosts caser f = [] := by
  have hl := splitN_four_length (trimSuffix f.name (filepathExt f.name)) '-'
  unfold entryPosts
  simp only [listPostsLoop]
  split
  · split
    · rename_i heq
      rw [heq] at hl
      simp at hl
      omega
    · rfl
  · rfl

theorem entryPosts_keep (caser : Str → Str) {f : DirEntry} {a b c rest : Str}
    (hext : filepathExt f.name = ".md".toList)
    (hs : splitN (trimSuffix f.name ".md".toList) '-' 4 = [a, b, c, rest]) :
    entryPosts caser f =
      [{ Title := caser (replaceAll rest '-' ' '),
         Date := a ++ "-".toList ++ b ++ "-".toList ++ c,
         Author := [], Content := [], FileName := f.name }] := by
  unfold entryPosts
  simp only [listPostsLoop, hext, if_true, hs, List.nil_append]

theorem listPostsLoop_insert (caser : Str → Str) (before after : List DirEntry)
    (e : DirEntry) :
    listPostsLoop caser (before ++ e :: after) [] =
      listPostsLoop caser before [] ++ (entryPosts caser e ++ listPostsLoop caser after []) := by
  rw [listPostsLoop_append, listPostsLoop_cons, listPostsLoop_acc, List.append_assoc]

theorem entryPosts_bad_split (caser : Str → Str) {f : DirEntry}
    (h : (splitN (trimSuffix f.name (filepathExt f.name)) '-' 4).length ≠ 4) :
    entryPosts caser f = [] := by
  apply entryPosts_few
  rw [splitN_four_length] at h
  omega

/-! ## The outcomes of `postHandler` -/

theorem osReadFile_file {fs : FileSystem} {path content : Str}
    (h : fs path = some (Node.file content)) : osReadFile fs path = some content := by
  simp [osReadFile, h]

theorem osReadFile_none {fs : FileSystem} {path : Str}
    (h : fs path = none ∨ fs path = some Node.dir) : osReadFile fs path = none := by
  rcases h with h | h <;> simp [osReadFile, h]

theorem postHandler_unreadable (fs : FileSystem) (convert : Str → Except Str Str)
    (caser : Str → Str) {fileName : Str}
    (h : osReadFile fs (filepathJoin ["posts".toList, fileName]) = none) :
    postHandler fs convert caser ("/post/".toList ++ fileName) = notFound := by
  unfold postHandler
  rw [trimPrefix_append]
  simp only [h]
  rfl

theorem postHandler_convert_error (fs : FileSystem) (convert : Str → Except Str Str)
    (caser : Str → Str) {fileName content err : Str}
    (h : osReadFile fs (filepathJoin ["posts".toList, fileName]) = some content)
    (hc : convert (parseFrontMatter content).2.2 = .error err) :
    postHandler fs convert caser ("/post/".toList ++ fileName) =
      .error err statusInternalServerError := by
  unfold postHandler
  rw [trimPrefix_append]
  simp only [h, hc]

theorem postHandler_invalid (fs : FileSystem) (convert : Str → Except Str Str)
    (caser : Str → Str) {fileName content html : Str}
    (h : osReadFile fs (filepathJoin ["posts".toList, fileName]) = some content)
    (hc : convert (parseFrontMatter content).2.2 = .ok html)
    (hn : count '-' (trimSuffix fileName (filepathExt fileName)) < 3) :
    postHandler fs convert caser ("/post/".toList ++ fileName) = invalidFormat := by
  have hl := splitN_four_length (trimSuffix fileName (filepathExt fileName)) '-'
  unfold postHandler
  rw [trimPrefix_append]
  simp only [h, hc]
  split
  · rename_i heq
    rw [heq] at hl
    simp at hl
    omega
  · rfl

theorem postHandler_page (fs : FileSystem) (convert : Str → Except Str Str)
    (caser : Str → Str) {fileName content html a b c rest : Str}
    (h : osReadFile fs (filepathJoin ["posts".toList, fileName]) = some content)
    (hc : convert (parseFrontMatter content).2.2 = .ok html)
    (hs : splitN (trimSuffix fileName (filepathExt fileName)) '-' 4 = [a, b, c, rest]) :
    postHandler fs convert caser ("/post/".toList ++ fileName) =
      .page
        { PageTitle := "Academic Blog".toList,
          Title := caser (replaceAll rest '-' ' '),
          Date := a ++ "-".toList ++ b ++ "-".toList ++ c,
          Author := (parseFrontMatter content).1, Posts := [], Body := html } := by
  unfold postHandler
  rw [trimPrefix_append]
  simp only [h, hc, hs]

/-! ## Files with a front matter block -/

theorem split_block {block : List Str} (body : Str) (hnl : ∀ l ∈ block, '\n' ∉ l) :
    split (frontMatterFile block body) '\n' =
      "---".toList :: (block ++ "---".toList :: split body '\n') := by
  have h : ∀ l ∈ "---".toList :: (block ++ ["---".toList]), '\n' ∉ l := by
    intro l hl
    rcases List.mem_cons.1 hl with rfl | hl
    · decide
    · rcases List.mem_append.1 hl with hl | hl
      · exact hnl l hl
      · rw [List.mem_singleton.1 hl]; decide
  have := split_join_append body '\n' h
  unfold frontMatterFile
  simpa using this

theorem frontMatterEnd_block {block : List Str} (body : Str) (hnl : ∀ l ∈ block, '\n' ∉ l)
    (hdel : ∀ l ∈ block, trimSpace l ≠ "---".toList) :
    frontMatterEnd (frontMatterFile block body) =
      some (block.length + 1) := by
  have hp : hasPrefix (frontMatterFile block body) "---".toList = true := by
    unfold frontMatterFile
    cases hb : block ++ ["---".toList, body] with
    | nil => simp at hb
    | cons y ys =>
      rw [join_cons_cons, List.append_assoc]
      exact hasPrefix_append _ _
  have hs := split_block body hnl
  unfold split at hs
  unfold frontMatterFile at hs hp ⊢
  unfold frontMatterEnd
  rw [if_pos hp, hs]
  simp only [List.drop_succ_cons, List.drop_zero]
  rw [findEnd_append _ _ hdel, findEnd_hit _ _ (by decide)]
  congr 1; omega

theorem parseFrontMatter_block {block : List Str} (body : Str) (hnl : ∀ l ∈ block, '\n' ∉ l)
    (hdel : ∀ l ∈ block, trimSpace l ≠ "---".toList) :
    parseFrontMatter (frontMatterFile block body) =
      ((block.foldl frontMatterLine ([], [])).1, (block.foldl frontMatterLine ([], [])).2,
        body) := by
  rw [parseFrontMatter_some (frontMatterEnd_block body hnl hdel), split_block body hnl]
  have h1 : (("---".toList :: (block ++ "---".toList :: split body '\n')).take
      (block.length + 1)).drop 1 = block := by
    simp [List.take_succ_cons]
  have h2 : ("---".toList :: (block ++ "---".toList :: split body '\n')).drop
      (block.length + 1 + 1) = split body '\n' := by
    simp [List.drop_succ_cons]
  rw [h1, h2]
  exact congrArg (fun b => ((block.foldl frontMatterLine ([], [])).1,
    (block.foldl frontMatterLine ([], [])).2, b)) (join_split body '\n')

theorem authorLine_facts {k X : Str}
    (hk : List.Forall₂ (fun c x => c = x ∨ c = x.toUpper) k "author".toList)
    (hX1 : X.head? ≠ some '"') (hX2 : X.getLast? ≠ some '"') (hXn : '\n' ∉ X) :
    '\n' ∉ quotedLine k X ∧
      trimSpace (quotedLine k X) ≠ "---".toList ∧
      ∀ st, frontMatterLine st (quotedLine k X) = (X, st.2) := by
  obtain ⟨hl, hsp⟩ := forall₂_letters hk author_letter_facts
  obtain ⟨hcol, hkey⟩ := author_key hk
  have hlen : k.length = 6 := hk.length_eq
  have hnk : '\n' ∉ k := fun hm => by
    have := (hsp _ hm).1
    revert this; decide
  refine ⟨?_, ?_, ?_⟩
  · simp only [quotedLine, List.mem_append, not_or]
    exact ⟨⟨⟨⟨hnk, by decide⟩, by decide⟩, hXn⟩, by decide⟩
  · have hts : trimSpace (quotedLine k X) =
        quotedLine k X := by
      have := trimSpace_peel (l := []) (m := quotedLine k X)
        (r := []) (by simp) (by simp) ?_ ?_
      · simpa using this
      · intro c hc
        unfold quotedLine at hc
        cases k with
        | nil => simp at hlen
        | cons x xs =>
          simp at hc
          subst hc
          exact (hsp _ (List.mem_cons_self _ _)).1
      · intro c hc
        unfold quotedLine at hc
        rw [List.getLast?_eq_head?_reverse] at hc
        simp at hc
        subst hc
        decide
    rw [hts]
    intro he
    have := congrArg List.length he
    simp [quotedLine, hlen] at this
    omega
  · intro st
    have he : quotedLine k X =
        k ++ ':' :: ([' '] ++ (('"' :: (X ++ ['"'])) ++ [])) := by simp [quotedLine]
    rw [he, frontMatterLine_author st hcol hkey]
    have h1 : trimSpace ([' '] ++ (('"' :: (X ++ ['"'])) ++ [])) = '"' :: (X ++ ['"']) := by
      apply trimSpace_peel
      · intro c hc; simp at hc; subst hc; decide
      · simp
      · intro c hc; simp at hc; subst hc; decide
      · intro c hc
        rw [List.getLast?_eq_head?_reverse] at hc
        simp at hc; subst hc; decide
    rw [h1]
    have h2 : trim (['"'] ++ (X ++ ['"'])) ['"'] = X :=
      trim_quote_peel (by simp) (by simp) hX1 hX2
    exact congrArg (fun a => (a, st.2)) h2

/-! ## Discovery and rendering agree on date and title -/

theorem datedName_ext (y m d slug : Str) : filepathExt (datedName y m d slug) = ".md".toList := by
  unfold datedName; exact filepathExt_md _

theorem datedName_split {y m d : Str} (slug : Str) (hy : '-' ∉ y) (hm : '-' ∉ m) (hd : '-' ∉ d) :
    splitN (trimSuffix (datedName y m d slug) (filepathExt (datedName y m d slug))) '-' 4 =
      [y, m, d, slug] := by
  rw [datedName_ext]
  unfold datedName
  rw [trimSuffix_append]
  have := splitN_four slug hy hm hd
  simpa using this

/-- C1: for every file name `y-m-d-slug.md` (`y`, `m`, `d` hyphen-free, as the groups of
`YYYY-MM-DD` are), in whatever listing the entry stands, between the entries `before` and
`after`, `listPosts` returns the summaries of `before`, then the summary of the entry with
date `y-m-d` and title the cased slug, then the summaries of `after`; and `postHandler`,
for a readable file of that name whose Markdown converts, renders the page with the same
date and the same title. -/
theorem discovery_and_rendering_agree (caser : Str → Str) (convert : Str → Except Str Str)
    (fs : FileSystem) (y m d slug content html : Str) (before after : List DirEntry)
    (hy : '-' ∉ y) (hm : '-' ∉ m) (hd : '-' ∉ d)
    (hread : fs (filepathJoin ["posts".toList, datedName y m d slug]) = some (Node.file content))
    (hconv : convert (parseFrontMatter content).2.2 = .ok html) :
    (∃ p₁ p₂, listPosts caser (.ok before) = .ok p₁ ∧ listPosts caser (.ok after) = .ok p₂ ∧
        listPosts caser
            (.ok (before ++ { name := datedName y m d slug, isDir := false } :: after)) =
          .ok (p₁ ++ { Title := caser (replaceAll slug '-' ' '),
                       Date := y ++ "-".toList ++ m ++ "-".toList ++ d,
                       Author := [], Content := [],
                       FileName := datedName y m d slug } :: p₂)) ∧
      postHandler fs convert caser ("/post/".toList ++ datedName y m d slug) =
        .page { PageTitle := "Academic Blog".toList,
                Title := caser (replaceAll slug '-' ' '),
                Date := y ++ "-".toList ++ m ++ "-".toList ++ d,
                Author := (parseFrontMatter content).1, Posts := [], Body := html } := by
  constructor
  · have hs := datedName_split slug hy hm hd
    rw [datedName_ext] at hs
    have he := entryPosts_keep caser (f := { name := datedName y m d slug, isDir := false })
      (datedName_ext y m d slug) hs
    refine ⟨listPostsLoop caser before [], listPostsLoop caser after [], rfl, rfl, ?_⟩
    simp only [listPosts]
    rw [listPostsLoop_insert, he]
    rfl
  · exact postHandler_page fs convert caser (osReadFile_file hread) hconv
      (datedName_split slug hy hm hd)

set_option maxRecDepth 100000 in
theorem discovery_and_rendering_agree_witness :
    listPosts titleCase
        (.ok ([{ name := "notes.txt".toList, isDir := false },
               { name := "2023-12-31-old-year.md".toList, isDir := false }] ++
          { name := (datedName "2024".toList "01".toList "15".toList "my-first-post".toList),
            isDir := false } ::
          [{ name := "2024-02-01-next.md".toList, isDir := false }])) =
        .ok [{ Title := "Old Year".toList, Date := "2023-12-31".toList, Author := [],
               Content := [], FileName := "2023-12-31-old-year.md".toList },
             { Title := "My First Post".toList, Date := "2024-01-15".toList, Author := [],
               Content := [], FileName := "2024-01-15-my-first-post.md".toList },
             { Title := "Next".toList, Date := "2024-02-01".toList, Author := [],
               Content := [], FileName := "2024-02-01-next.md".toList }] ∧
      postHandler sampleTree sampleConvert titleCase
          ("/post/".toList ++ datedName "2024".toList "01".toList "15".toList
            "my-first-post".toList) =
        .page { PageTitle := "Academic Blog".toList,
                Title := "My First Post".toList, Date := "2024-01-15".toList,
                Author := "Ada Lovelace".toList, Posts := [],
                Body := "<p># Hello\n</p>".toList } := by
  have h := discovery_and_rendering_agree titleCase sampleConvert sampleTree "2024".toList
    "01".toList "15".toList "my-first-post".toList
    "---\ntitle: \"Notes\"\nauthor: \"Ada Lovelace\"\ndate: 1999-12-31\n---\n# Hello\n".toList
    "<p># Hello\n</p>".toList
    [{ name := "notes.txt".toList, isDir := false },
     { name := "2023-12-31-old-year.md".toList, isDir := false }]
    [{ name := "2024-02-01-next.md".toList, isDir := false }]
    (by decide) (by decide) (by decide) (by decide) rfl
  refine ⟨?_, h.2⟩
  obtain ⟨p₁, p₂, h1, h2, h3⟩ := h.1
  have e1 := Except.ok.inj h1
  have e2 := Except.ok.inj h2
  subst e1
  subst e2
  exact h3

/-! ## Names that do not split into four segments -/

theorem count_lt_three_of_segments {s : Str} (h : (split s '-').length < 4) :
    count '-' s < 3 := by
  rw [split_length] at h; omega

/-- C2: an entry whose extension-stripped name does not split into exactly 4 segments
(`strings.SplitN` at the hyphens with limit 4 gives fewer or more than 4 pieces) is
skipped by `listPosts`, so the list is the one returned without the entry, whatever
stands before and after it, and `postHandler`, for a readable file of that name whose
Markdown converts, answers with the invalid-format error. -/
theorem invalid_name_skipped_and_rejected (caser : Str → Str) (name : Str) (isDir : Bool)
    (before after : List DirEntry)
    (hseg : (splitN (trimSuffix name (filepathExt name)) '-' 4).length ≠ 4) :
    listPosts caser (.ok (before ++ { name := name, isDir := isDir } :: after)) =
        listPosts caser (.ok (before ++ after)) ∧
      ∀ (fs : FileSystem) (convert : Str → Except Str Str) (content html : Str),
        fs (filepathJoin ["posts".toList, name]) = some (Node.file content) →
        convert (parseFrontMatter content).2.2 = .ok html →
        postHandler fs convert caser ("/post/".toList ++ name) = invalidFormat := by
  have hc : count '-' (trimSuffix name (filepathExt name)) < 3 := by
    rw [splitN_four_length] at hseg
    omega
  constructor
  · have he : entryPosts caser { name := name, isDir := isDir } = [] :=
      entryPosts_bad_split caser hseg
    simp only [listPosts]
    rw [listPostsLoop_insert, he, List.nil_append, listPostsLoop_append,
      ← listPostsLoop_acc]
  · intro fs convert content html hread hconv
    exact postHandler_invalid fs convert caser (osReadFile_file hread) hconv hc

set_option maxRecDepth 100000 in
theorem invalid_name_skipped_and_rejected_witness :
    (splitN (trimSuffix "2024-01.md".toList (filepathExt "2024-01.md".toList)) '-' 4).length
        ≠ 4 ∧
      listPosts titleCase
          (.ok ([{ name := "2023-12-31-old-year.md".toList, isDir := false }] ++
            { name := "2024-01.md".toList, isDir := false } ::
            [{ name := "2024-02-01-next.md".toList, isDir := false }])) =
        listPosts titleCase
          (.ok ([{ name := "2023-12-31-old-year.md".toList, isDir := false }] ++
            [{ name := "2024-02-01-next.md".toList, isDir := false }])) ∧
      listPosts titleCase
          (.ok ([{ name := "2023-12-31-old-year.md".toList, isDir := false }] ++
            [{ name := "2024-02-01-next.md".toList, isDir := false }])) =
        .ok [{ Title := "Old Year".toList, Date := "2023-12-31".toList, Author := [],
               Content := [], FileName := "2023-12-31-old-year.md".toList },
             { Title := "Next".toList, Date := "2024-02-01".toList, Author := [],
               Content := [], FileName := "2024-02-01-next.md".toList }] ∧
      postHandler sampleTree sampleConvert titleCase ("/post/".toList ++ "2024-01.md".toList) =
        invalidFormat :=
  ⟨by decide,
   (invalid_name_skipped_and_rejected titleCase "2024-01.md".toList false
      [{ name := "2023-12-31-old-year.md".toList, isDir := false }]
      [{ name := "2024-02-01-next.md".toList, isDir := false }] (by decide)).1,
   rfl,
   (invalid_name_skipped_and_rejected titleCase "2024-01.md".toList false
      [{ name := "2023-12-31-old-year.md".toList, isDir := false }]
      [{ name := "2024-02-01-next.md".toList, isDir := false }] (by decide)).2
      sampleTree sampleConvert "text".toList "<p>text</p>".toList (by decide) rfl⟩

/-! ## Author and body of a post with front matter -/

theorem splitN_dashed {a b c rest : Str} (ha : '-' ∉ a) (hb : '-' ∉ b) (hc : '-' ∉ c) :
    splitN (a ++ "-".toList ++ b ++ "-".toList ++ c ++ "-".toList ++ rest) '-' 4 =
      [a, b, c, rest] := by
  have := splitN_four rest ha hb hc
  simpa using this

theorem postHandler_renders (fs : FileSystem) (convert : Str → Except Str Str)
    (caser : Str → Str) {fileName content html a b c rest : Str}
    (hread : fs (filepathJoin ["posts".toList, fileName]) = some (Node.file content))
    (hconv : convert (parseFrontMatter content).2.2 = .ok html)
    (hbase : trimSuffix fileName (filepathExt fileName) =
      a ++ "-".toList ++ b ++ "-".toList ++ c ++ "-".toList ++ rest)
    (ha : '-' ∉ a) (hb : '-' ∉ b) (hc : '-' ∉ c) :
    postHandler fs convert caser ("/post/".toList ++ fileName) =
      .page
        { PageTitle := "Academic Blog".toList,
          Title := caser (replaceAll rest '-' ' '),
          Date := a ++ "-".toList ++ b ++ "-".toList ++ c,
          Author := (parseFrontMatter content).1, Posts := [], Body := html } := by
  apply postHandler_page fs convert caser (osReadFile_file hread) hconv
  rw [hbase]
  exact splitN_dashed ha hb hc

theorem not_author_of_cut {l k v : Str} (hcut : cut ':' l = some (k, v))
    (hk : toLower (trimSpace k) ≠ "author".toList) :
    ∀ k₁ v₁, l = k₁ ++ ':' :: v₁ → ':' ∉ k₁ → toLower (trimSpace k₁) ≠ "author".toList := by
  intro k₁ v₁ he hn
  have := cut_eq_some.2 ⟨he, hn⟩
  rw [hcut] at this
  simp only [Option.some.injEq, Prod.mk.injEq] at this
  rw [← this.1]
  exact hk

/-- C3: for a file content made of a `---` line, front matter lines among which the author
line `k: "X"` (`k` the word `author` in any letter case, `X` not starting or ending with a
double quote) is the last one with that key, a closing `---` line and a body, the front
matter block yields author `X` and hands exactly `body` to the Markdown conversion, and
the page rendered for a valid file name carries author `X` and the conversion of `body`. -/
theorem front_matter_author (k X body : Str) (pre post : List Str)
    (hk : List.Forall₂ (fun c x => c = x ∨ c = x.toUpper) k "author".toList)
    (hX1 : X.head? ≠ some '"') (hX2 : X.getLast? ≠ some '"') (hXn : '\n' ∉ X)
    (hnl : ∀ l ∈ pre ++ post, '\n' ∉ l)
    (hdel : ∀ l ∈ pre ++ post, trimSpace l ≠ "---".toList)
    (hpost : ∀ l ∈ post, ∀ k₁ v₁, l = k₁ ++ ':' :: v₁ → ':' ∉ k₁ →
      toLower (trimSpace k₁) ≠ "author".toList) :
    (parseFrontMatter (frontMatterFile (pre ++ quotedLine k X :: post) body)).1 = X ∧
      (parseFrontMatter (frontMatterFile (pre ++ quotedLine k X :: post) body)).2.2 = body ∧
      ∀ (fs : FileSystem) (convert : Str → Except Str Str) (caser : Str → Str)
        (fileName a b c rest html : Str),
        fs (filepathJoin ["posts".toList, fileName]) =
          some (Node.file (frontMatterFile (pre ++ quotedLine k X :: post) body)) →
        convert body = .ok html →
        trimSuffix fileName (filepathExt fileName) =
          a ++ "-".toList ++ b ++ "-".toList ++ c ++ "-".toList ++ rest →
        '-' ∉ a → '-' ∉ b → '-' ∉ c →
        postHandler fs convert caser ("/post/".toList ++ fileName) =
          .page
            { PageTitle := "Academic Blog".toList,
              Title := caser (replaceAll rest '-' ' '),
              Date := a ++ "-".toList ++ b ++ "-".toList ++ c,
              Author := X, Posts := [], Body := html } := by
  obtain ⟨h1, h2, h3⟩ := authorLine_facts hk hX1 hX2 hXn
  have hnl2 : ∀ l ∈ pre ++ quotedLine k X :: post, '\n' ∉ l := by
    intro l hl
    rcases List.mem_append.1 hl with hl | hl
    · exact hnl l (List.mem_append_left _ hl)
    · rcases List.mem_cons.1 hl with rfl | hl
      · exact h1
      · exact hnl l (List.mem_append_right _ hl)
  have hdel2 : ∀ l ∈ pre ++ quotedLine k X :: post, trimSpace l ≠ "---".toList := by
    intro l hl
    rcases List.mem_append.1 hl with hl | hl
    · exact hdel l (List.mem_append_left _ hl)
    · rcases List.mem_cons.1 hl with rfl | hl
      · exact h2
      · exact hdel l (List.mem_append_right _ hl)
  have hp := parseFrontMatter_block body hnl2 hdel2
  have hfold : ((pre ++ quotedLine k X :: post).foldl frontMatterLine ([], [])).1 = X := by
    rw [List.foldl_append, List.foldl_cons, foldl_frontMatterLine_fst hpost, h3]
  have hA : (parseFrontMatter (frontMatterFile (pre ++ quotedLine k X :: post) body)).1 = X := by
    rw [hp]; exact hfold
  have hB : (parseFrontMatter (frontMatterFile (pre ++ quotedLine k X :: post) body)).2.2 =
      body := by
    rw [hp]
  refine ⟨hA, hB, ?_⟩
  intro fs convert caser fileName a b c rest html hread hconv hbase ha hb hc
  have := postHandler_renders fs convert caser hread (by rw [hB]; exact hconv) hbase ha hb hc
  rw [hA] at this
  exact this

set_option maxRecDepth 100000 in
theorem front_matter_author_witness :
    (parseFrontMatter (frontMatterFile (["title: \"Notes\"".toList] ++
        quotedLine "author".toList "Ada Lovelace".toList :: ["date: 1999-12-31".toList])
        "# Hello\n".toList)).1 = "Ada Lovelace".toList ∧
      (parseFrontMatter (frontMatterFile (["title: \"Notes\"".toList] ++
        quotedLine "author".toList "Ada Lovelace".toList :: ["date: 1999-12-31".toList])
        "# Hello\n".toList)).2.2 = "# Hello\n".toList ∧
      postHandler sampleTree sampleConvert titleCase
          ("/post/".toList ++ "2024-01-15-my-first-post.md".toList) =
        .page
          { PageTitle := "Academic Blog".toList,
            Title := titleCase (replaceAll "my-first-post".toList '-' ' '),
            Date := "2024".toList ++ "-".toList ++ "01".toList ++ "-".toList ++ "15".toList,
            Author := "Ada Lovelace".toList, Posts := [],
            Body := "<p># Hello\n</p>".toList } :=
  have h := front_matter_author "author".toList "Ada Lovelace".toList "# Hello\n".toList
    ["title: \"Notes\"".toList] ["date: 1999-12-31".toList]
    (by decide) (by decide) (by decide) (by decide) (by decide) (by decide)
    (by
      intro l hl
      rw [List.mem_singleton.1 hl]
      exact not_author_of_cut (k := "date".toList) (v := " 1999-12-31".toList)
        (by decide) (by decide))
  ⟨h.1, h.2.1, h.2.2 sampleTree sampleConvert titleCase "2024-01-15-my-first-post.md".toList
    "2024".toList "01".toList "15".toList "my-first-post".toList "<p># Hello\n</p>".toList
    (by decide) rfl (by decide) (by decide) (by decide) (by decide)⟩


/-! ## Posts without front matter; date and title from the name -/

theorem frontMatterEnd_none_of {content : Str}
    (h : hasPrefix content "---".toList = false ∨
      ∀ l ∈ (split content '\n').drop 1, trimSpace l ≠ "---".toList) :
    frontMatterEnd content = none := by
  unfold frontMatterEnd
  by_cases hp : hasPrefix content "---".toList = true
  · rw [if_pos hp]
    rcases h with h | h
    · rw [h] at hp; cases hp
    · exact findEnd_none 1 h
  · rw [if_neg hp]

/-- C4: for a file content from which no front matter is extracted, because it does not
start with `---` or because no line after the first is `---` after trimming, the front
matter block leaves author and date empty and hands the whole content, unchanged, to the
Markdown conversion, and the page rendered for a valid file name has the empty author and
the conversion of the whole content as body. -/
theorem no_front_matter (content : Str)
    (h : hasPrefix content "---".toList = false ∨
      ∀ l ∈ (split content '\n').drop 1, trimSpace l ≠ "---".toList) :
    parseFrontMatter content = ([], [], content) ∧
      ∀ (fs : FileSystem) (convert : Str → Except Str Str) (caser : Str → Str)
        (fileName a b c rest html : Str),
        fs (filepathJoin ["posts".toList, fileName]) = some (Node.file content) →
        convert content = .ok html →
        trimSuffix fileName (filepathExt fileName) =
          a ++ "-".toList ++ b ++ "-".toList ++ c ++ "-".toList ++ rest →
        '-' ∉ a → '-' ∉ b → '-' ∉ c →
        postHandler fs convert caser ("/post/".toList ++ fileName) =
          .page
            { PageTitle := "Academic Blog".toList,
              Title := caser (replaceAll rest '-' ' '),
              Date := a ++ "-".toList ++ b ++ "-".toList ++ c,
              Author := [], Posts := [], Body := html } := by
  have hp := parseFrontMatter_none (frontMatterEnd_none_of h)
  refine ⟨hp, ?_⟩
  intro fs convert caser fileName a b c rest html hread hconv hbase ha hb hc
  have := postHandler_renders fs convert caser hread (by rw [hp]; exact hconv) hbase ha hb hc
  rw [hp] at this
  exact this

set_option maxRecDepth 100000 in
theorem no_front_matter_witness :
    parseFrontMatter "---\nabout dashes\n".toList = ([], [], "---\nabout dashes\n".toList) ∧
      postHandler plainTree sampleConvert titleCase
          ("/post/".toList ++ "2024-01-15-my-first-post.md".toList) =
        .page
          { PageTitle := "Academic Blog".toList,
            Title := titleCase (replaceAll "my-first-post".toList '-' ' '),
            Date := "2024".toList ++ "-".toList ++ "01".toList ++ "-".toList ++ "15".toList,
            Author := [], Posts := [],
            Body := "<p>---\nabout dashes\n</p>".toList } :=
  have h := no_front_matter "---\nabout dashes\n".toList (Or.inr (by decide))
  ⟨h.1, h.2 plainTree sampleConvert titleCase "2024-01-15-my-first-post.md".toList
    "2024".toList "01".toList "15".toList "my-first-post".toList
    "<p>---\nabout dashes\n</p>".toList
    (by decide) rfl (by decide) (by decide) (by decide) (by decide)⟩

/-- C5: for a file name whose extension-stripped name is `a-b-c-rest` with `a`, `b`, `c`
hyphen-free, the rendered page has date `a-b-c` and title the cased `rest`, whatever the
content of the file: two files of that name with different contents (and different front
matter `date:` or `title:` lines) render with the same date and the same title. -/
theorem date_and_title_from_file_name (caser : Str → Str) (fileName a b c rest : Str)
    (hbase : trimSuffix fileName (filepathExt fileName) =
      a ++ "-".toList ++ b ++ "-".toList ++ c ++ "-".toList ++ rest)
    (ha : '-' ∉ a) (hb : '-' ∉ b) (hc : '-' ∉ c)
    (fs₁ fs₂ : FileSystem) (convert₁ convert₂ : Str → Except Str Str)
    (content₁ content₂ html₁ html₂ : Str)
    (hread₁ : fs₁ (filepathJoin ["posts".toList, fileName]) = some (Node.file content₁))
    (hread₂ : fs₂ (filepathJoin ["posts".toList, fileName]) = some (Node.file content₂))
    (hconv₁ : convert₁ (parseFrontMatter content₁).2.2 = .ok html₁)
    (hconv₂ : convert₂ (parseFrontMatter content₂).2.2 = .ok html₂) :
    postHandler fs₁ convert₁ caser ("/post/".toList ++ fileName) =
        .page
          { PageTitle := "Academic Blog".toList,
            Title := caser (replaceAll rest '-' ' '),
            Date := a ++ "-".toList ++ b ++ "-".toList ++ c,
            Author := (parseFrontMatter content₁).1, Posts := [], Body := html₁ } ∧
      postHandler fs₂ convert₂ caser ("/post/".toList ++ fileName) =
        .page
          { PageTitle := "Academic Blog".toList,
            Title := caser (replaceAll rest '-' ' '),
            Date := a ++ "-".toList ++ b ++ "-".toList ++ c,
            Author := (parseFrontMatter content₂).1, Posts := [], Body := html₂ } :=
  ⟨postHandler_renders fs₁ convert₁ caser hread₁ hconv₁ hbase ha hb hc,
   postHandler_renders fs₂ convert₂ caser hread₂ hconv₂ hbase ha hb hc⟩

set_option maxRecDepth 100000 in
theorem date_and_title_from_file_name_witness :
    postHandler sampleTree sampleConvert titleCase
          ("/post/".toList ++ "2024-01-15-my-first-post.md".toList) =
        .page
          { PageTitle := "Academic Blog".toList,
            Title := titleCase (replaceAll "my-first-post".toList '-' ' '),
            Date := "2024".toList ++ "-".toList ++ "01".toList ++ "-".toList ++ "15".toList,
            Author := "Ada Lovelace".toList, Posts := [],
            Body := "<p># Hello\n</p>".toList } ∧
      postHandler otherTree sampleConvert titleCase
          ("/post/".toList ++ "2024-01-15-my-first-post.md".toList) =
        .page
          { PageTitle := "Academic Blog".toList,
            Title := titleCase (replaceAll "my-first-post".toList '-' ' '),
            Date := "2024".toList ++ "-".toList ++ "01".toList ++ "-".toList ++ "15".toList,
            Author := [], Posts := [],
            Body := "<p>Bye\n</p>".toList } :=
  date_and_title_from_file_name titleCase "2024-01-15-my-first-post.md".toList
    "2024".toList "01".toList "15".toList "my-first-post".toList
    (by decide) (by decide) (by decide) (by decide)
    sampleTree otherTree sampleConvert sampleConvert
    "---\ntitle: \"Notes\"\nauthor: \"Ada Lovelace\"\ndate: 1999-12-31\n---\n# Hello\n".toList
    "---\ntitle: \"Other\"\ndate: 2001-02-03\n---\nBye\n".toList "<p># Hello\n</p>".toList
    "<p>Bye\n</p>".toList
    (by decide) (by decide) rfl rfl


/-! ## Summaries, and the errors of a post request -/

/-- C6: an entry with extension `.md` whose extension-stripped name has at least three
hyphens is `a-b-c-rest` with `a`, `b`, `c` hyphen-free, and for every such reading of the
name and every listing in which the entry stands, between the entries `before` and
`after`, `listPosts` returns the summaries of `before`, then one summary for the entry,
with date `a-b-c`, title the title-cased `rest` in which each hyphen became a space, and
the entry name, unchanged, as file name, then the summaries of `after`. -/
theorem listPosts_summary (caser : Str → Str) (name : Str) (isDir : Bool)
    (hext : filepathExt name = ".md".toList)
    (h3 : 3 ≤ count '-' (trimSuffix name ".md".toList)) :
    (∃ a b c rest, trimSuffix name ".md".toList =
        a ++ "-".toList ++ b ++ "-".toList ++ c ++ "-".toList ++ rest ∧
        '-' ∉ a ∧ '-' ∉ b ∧ '-' ∉ c) ∧
      ∀ a b c rest, trimSuffix name ".md".toList =
          a ++ "-".toList ++ b ++ "-".toList ++ c ++ "-".toList ++ rest →
        '-' ∉ a → '-' ∉ b → '-' ∉ c →
        ∀ before after : List DirEntry,
          ∃ p₁ p₂, listPosts caser (.ok before) = .ok p₁ ∧
            listPosts caser (.ok after) = .ok p₂ ∧
            listPosts caser (.ok (before ++ { name := name, isDir := isDir } :: after)) =
              .ok (p₁ ++ { Title := caser (replaceAll rest '-' ' '),
                           Date := a ++ "-".toList ++ b ++ "-".toList ++ c,
                           Author := [], Content := [], FileName := name } :: p₂) := by
  constructor
  · obtain ⟨a, b, c, rest, he, ha, hb, hc⟩ := exists_three_cuts h3
    exact ⟨a, b, c, rest, by rw [he]; simp, ha, hb, hc⟩
  · intro a b c rest hbase ha hb hc before after
    have hs : splitN (trimSuffix name ".md".toList) '-' 4 = [a, b, c, rest] := by
      rw [hbase]; exact splitN_dashed ha hb hc
    have he := entryPosts_keep caser (f := { name := name, isDir := isDir }) hext hs
    refine ⟨listPostsLoop caser before [], listPostsLoop caser after [], rfl, rfl, ?_⟩
    simp only [listPosts]
    rw [listPostsLoop_insert, he]
    rfl

set_option maxRecDepth 100000 in
theorem listPosts_summary_witness :
    listPosts titleCase (.ok [{ name := "2024-01-15-my-first-post.md".toList, isDir := false }]) =
        .ok [{ Title := "My First Post".toList, Date := "2024-01-15".toList,
               Author := [], Content := [],
               FileName := "2024-01-15-my-first-post.md".toList }] ∧
      listPosts titleCase
          (.ok ([{ name := "notes.txt".toList, isDir := false },
                 { name := "2023-12-31-old-year.md".toList, isDir := false }] ++
            { name := "2024-01-15-my-first-post.md".toList, isDir := false } ::
            [{ name := "2024-02-01-next.md".toList, isDir := false }])) =
        .ok [{ Title := "Old Year".toList, Date := "2023-12-31".toList, Author := [],
               Content := [], FileName := "2023-12-31-old-year.md".toList },
             { Title := "My First Post".toList, Date := "2024-01-15".toList, Author := [],
               Content := [], FileName := "2024-01-15-my-first-post.md".toList },
             { Title := "Next".toList, Date := "2024-02-01".toList, Author := [],
               Content := [], FileName := "2024-02-01-next.md".toList }] := by
  have h := (listPosts_summary titleCase "2024-01-15-my-first-post.md".toList false
    (by decide) (by decide)).2 "2024".toList "01".toList "15".toList "my-first-post".toList
    (by decide) (by decide) (by decide) (by decide)
  constructor
  · obtain ⟨p₁, p₂, h1, h2, h3⟩ := h [] []
    have e1 := Except.ok.inj h1
    have e2 := Except.ok.inj h2
    subst e1
    subst e2
    exact h3
  · obtain ⟨p₁, p₂, h1, h2, h3⟩ := h
      [{ name := "notes.txt".toList, isDir := false },
       { name := "2023-12-31-old-year.md".toList, isDir := false }]
      [{ name := "2024-02-01-next.md".toList, isDir := false }]
    have e1 := Except.ok.inj h1
    have e2 := Except.ok.inj h2
    subst e1
    subst e2
    exact h3

/-- C7 (amended): a request for `/post/<fileName>` is answered not-found when nothing is at
`posts/<fileName>` or when a directory is there, and invalid-format when the file is
readable, its Markdown converts and the extension-stripped name has fewer than 4
hyphen-separated segments. -/
theorem post_request_errors (fs : FileSystem) (convert : Str → Except Str Str)
    (caser : Str → Str) (fileName : Str) :
    ((fs (filepathJoin ["posts".toList, fileName]) = none ∨
        fs (filepathJoin ["posts".toList, fileName]) = some Node.dir) →
      postHandler fs convert caser ("/post/".toList ++ fileName) = notFound) ∧
    (∀ content html,
      fs (filepathJoin ["posts".toList, fileName]) = some (Node.file content) →
      convert (parseFrontMatter content).2.2 = .ok html →
      (split (trimSuffix fileName (filepathExt fileName)) '-').length < 4 →
      postHandler fs convert caser ("/post/".toList ++ fileName) = invalidFormat) := by
  constructor
  · intro h
    exact postHandler_unreadable fs convert caser (osReadFile_none h)
  · intro content html hread hconv hseg
    exact postHandler_invalid fs convert caser (osReadFile_file hread) hconv
      (count_lt_three_of_segments hseg)

set_option maxRecDepth 100000 in
theorem post_request_errors_witness :
    postHandler sampleTree sampleConvert titleCase ("/post/".toList ++ "missing.md".toList) =
        notFound ∧
      postHandler sampleTree sampleConvert titleCase ("/post/".toList ++ "drafts".toList) =
        notFound ∧
      postHandler sampleTree sampleConvert titleCase ("/post/".toList ++ "2024-01.md".toList) =
        invalidFormat :=
  ⟨(post_request_errors sampleTree sampleConvert titleCase "missing.md".toList).1
      (Or.inl (by decide)),
   (post_request_errors sampleTree sampleConvert titleCase "drafts".toList).1
      (Or.inr (by decide)),
   (post_request_errors sampleTree sampleConvert titleCase "2024-01.md".toList).2
      "text".toList "<p>text</p>".toList (by decide) rfl (by decide)⟩

set_option maxRecDepth 100000 in
/-- C7, as stated, fails: the request for the directory `posts/drafts` is answered
not-found, not invalid-format, and so is the request for the missing `2024-01-15.md`, a name
with 3 hyphen-separated segments. -/
theorem directory_request_not_found :
    sampleTree (filepathJoin ["posts".toList, "drafts".toList]) = some Node.dir ∧
      postHandler sampleTree sampleConvert titleCase "/post/drafts".toList = notFound ∧
      (split (trimSuffix "2024-01-15.md".toList (filepathExt "2024-01-15.md".toList))
        '-').length = 3 ∧
      postHandler sampleTree sampleConvert titleCase "/post/2024-01-15.md".toList = notFound ∧
      notFound ≠ invalidFormat := by
  decide


/-! ## The value of a front matter line -/

theorem rdropWhile_append_rtakeWhile (p : Char → Bool) (l : Str) :
    l.rdropWhile p ++ l.rtakeWhile p = l := by
  unfold List.rdropWhile List.rtakeWhile
  rw [← List.reverse_append, List.takeWhile_append_dropWhile, List.reverse_reverse]

theorem peel_exists (p : Char → Bool) (v : Str) :
    ∃ l r, v = l ++ (((v.dropWhile p).rdropWhile p) ++ r) ∧
      (∀ c ∈ l, p c = true) ∧ (∀ c ∈ r, p c = true) ∧
      (∀ c, ((v.dropWhile p).rdropWhile p).head? = some c → p c = false) ∧
      (∀ c, ((v.dropWhile p).rdropWhile p).getLast? = some c → p c = false) := by
  refine ⟨v.takeWhile p, (v.dropWhile p).rtakeWhile p, ?_, ?_, ?_, ?_, ?_⟩
  · rw [rdropWhile_append_rtakeWhile, List.takeWhile_append_dropWhile]
  · intro c hc; exact List.mem_takeWhile_imp hc
  · intro c hc; exact List.mem_rtakeWhile_imp hc
  · intro c hc
    have hpre : (v.dropWhile p).rdropWhile p <+: v.dropWhile p := List.rdropWhile_prefix p _
    obtain ⟨t, ht⟩ := hpre
    have hh := List.head?_dropWhile_not p v
    cases hm : (v.dropWhile p).rdropWhile p with
    | nil => rw [hm] at hc; cases hc
    | cons x xs =>
      rw [hm] at hc ht
      simp at hc
      subst hc
      rw [← ht] at hh
      simpa using hh
  · intro c hc
    by_cases hne : (v.dropWhile p).rdropWhile p = []
    · rw [hne] at hc; cases hc
    · have := List.rdropWhile_last_not p (v.dropWhile p) hne
      rw [List.getLast?_eq_getLast _ hne] at hc
      simp only [Option.some.injEq] at hc
      rw [hc] at this
      simpa using this

theorem strippedValue_iff (v core : Str) :
    StrippedValue v core ↔ core = trim (trimSpace v) ['"'] := by
  constructor
  · rintro ⟨ws₁, q₁, q₂, ws₂, hv, h1, h2, h3, h4, h5, h6, h7, h8⟩
    have ht : trimSpace v = q₁ ++ (core ++ q₂) := by
      rw [hv]; exact trimSpace_peel h1 h2 h5 h6
    rw [ht, trim_quote_peel h3 h4 h7 h8]
  · intro hc
    obtain ⟨ws₁, ws₂, hv, h1, h2, h5, h6⟩ := peel_exists isSpace v
    obtain ⟨q₁, q₂, hm, h3, h4, h7, h8⟩ :=
      peel_exists (fun c => ['"'].contains c) (trimSpace v)
    have hcore : core = ((trimSpace v).dropWhile (fun c => ['"'].contains c)).rdropWhile
        (fun c => ['"'].contains c) := hc
    rw [← hcore] at hm h7 h8
    have hts : trimSpace v = (v.dropWhile isSpace).rdropWhile isSpace := rfl
    rw [← hts] at hv h5 h6
    refine ⟨ws₁, q₁, q₂, ws₂, ?_, h1, h2, ?_, ?_, ?_, ?_, ?_, ?_⟩
    · rw [← hm]; exact hv
    · intro c hc; simpa using h3 c hc
    · intro c hc; simpa using h4 c hc
    · rw [← hm]; exact h5
    · rw [← hm]; exact h6
    · intro h; simpa using h7 _ h
    · intro h; simpa using h8 _ h

/-- C8 (amended): for a front matter line `k:v` (`k` without colon, so that `v` is the
text after the first colon, later colons included), the value stored under the keys
`author` and `date` is `v` with the surrounding white space trimmed and then every double
quote at either end removed, all layers of them and also a quote at one end only, inner
quotes kept; a line without colon leaves the state as it is. -/
theorem front_matter_value (st : Str × Str) (k v : Str) (hk : ':' ∉ k) :
    (∀ core, StrippedValue v core ↔ core = trim (trimSpace v) ['"']) ∧
      (toLower (trimSpace k) = "author".toList →
        frontMatterLine st (k ++ ':' :: v) = (trim (trimSpace v) ['"'], st.2)) ∧
      (toLower (trimSpace k) = "date".toList →
        frontMatterLine st (k ++ ':' :: v) = (st.1, trim (trimSpace v) ['"'])) ∧
      ∀ l, ':' ∉ l → frontMatterLine st l = st :=
  ⟨strippedValue_iff v, frontMatterLine_author st hk, frontMatterLine_date st hk,
    fun _ hl => frontMatterLine_no_colon st hl⟩

set_option maxRecDepth 100000 in
theorem front_matter_value_witness :
    frontMatterLine ("old".toList, []) ("Author ".toList ++ ':' :: " \"a: \"b\" c\" ".toList) =
        ("a: \"b\" c".toList, []) ∧
      frontMatterLine ("old".toList, []) "no colon here".toList = ("old".toList, []) :=
  ⟨(front_matter_value ("old".toList, []) "Author ".toList " \"a: \"b\" c\" ".toList
      (by decide)).2.1 (by decide),
   (front_matter_value ("old".toList, []) "Author ".toList " \"a: \"b\" c\" ".toList
      (by decide)).2.2.2 "no colon here".toList (by decide)⟩

set_option maxRecDepth 100000 in
/-- C8, as stated, fails: for the line `author: ""X""` removing exactly one layer of
surrounding double quotes from the trimmed text would leave `"X"`, but the value stored is
`X`; and for `author: "X`, where no surrounding pair is present, the value stored is `X`
too, not `"X`. -/
theorem more_than_one_quote_layer_stripped :
    stripOneLayer (trimSpace " \"\"X\"\"".toList) = "\"X\"".toList ∧
      frontMatterLine ([], []) "author: \"\"X\"\"".toList = ("X".toList, []) ∧
      stripOneLayer (trimSpace " \"X".toList) = "\"X".toList ∧
      frontMatterLine ([], []) "author: \"X".toList = ("X".toList, []) := by
  decide


/-! ## The listed file names -/

theorem entryPosts_fileNames (caser : Str → Str) (f : DirEntry) :
    (entryPosts caser f).map (fun p => p.FileName) =
      if hasPostName f.name = true then [f.name] else [] := by
  by_cases hext : filepathExt f.name = ".md".toList
  · by_cases h3 : 3 ≤ count '-' (trimSuffix f.name ".md".toList)
    · obtain ⟨a, b, c, rest, he, ha, hb, hc⟩ := exists_three_cuts h3
      have hs : splitN (trimSuffix f.name ".md".toList) '-' 4 = [a, b, c, rest] := by
        rw [he]; exact splitN_four rest ha hb hc
      have hp : hasPostName f.name = true := by
        unfold hasPostName
        rw [Bool.and_eq_true]
        exact ⟨by rw [hext]; exact beq_self_eq_true _, decide_eq_true h3⟩
      rw [entryPosts_keep caser hext hs, if_pos hp]
      rfl
    · have hp : ¬ (hasPostName f.name = true) := by
        unfold hasPostName
        rw [Bool.and_eq_true]
        rintro ⟨_, h⟩
        exact h3 (of_decide_eq_true h)
      have hlt : count '-' (trimSuffix f.name (filepathExt f.name)) < 3 := by
        rw [hext]; omega
      rw [entryPosts_few caser hlt, if_neg hp]
      rfl
  · have hp : ¬ (hasPostName f.name = true) := by
      unfold hasPostName
      rw [Bool.and_eq_true]
      rintro ⟨h, _⟩
      exact hext (eq_of_beq h)
    rw [entryPosts_not_md caser hext, if_neg hp]
    rfl

theorem listPostsLoop_fileNames (caser : Str → Str) (files : List DirEntry) :
    (listPostsLoop caser files []).map (fun p => p.FileName) =
      (files.filter (fun f => hasPostName f.name)).map (fun f => f.name) := by
  induction files with
  | nil => rfl
  | cons f files ih =>
    rw [listPostsLoop_cons, listPostsLoop_acc, List.nil_append, List.map_append, ih,
      entryPosts_fileNames, List.filter_cons]
    by_cases hp : hasPostName f.name = true
    · simp [hp]
    · simp [hp]

/-- C9 (amended): for every list of directory entries, `listPosts` succeeds and the file
names it returns are, in the order of the enumeration, the names of the entries, files
and subdirectories alike, that have extension exactly `.md` and an extension-stripped
name with at least three hyphens (4 segments at the first three hyphens); entries with
another extension contribute nothing. -/
theorem listed_file_names (caser : Str → Str) (files : List DirEntry) :
    ∃ posts, listPosts caser (.ok files) = .ok posts ∧
      posts.map (fun p => p.FileName) =
        (files.filter (fun f => hasPostName f.name)).map (fun f => f.name) :=
  ⟨listPostsLoop caser files [], rfl, listPostsLoop_fileNames caser files⟩

set_option maxRecDepth 100000 in
/-- C9, as stated, fails: a subdirectory named `2024-01-15-drafts.md` is no file, so the
claimed list is empty, but `listPosts` returns a summary for it. -/
theorem subdirectory_listed :
    ([{ name := "2024-01-15-drafts.md".toList, isDir := true }] : List DirEntry).filter
        isListedFile = [] ∧
      listPosts titleCase (.ok [{ name := "2024-01-15-drafts.md".toList, isDir := true }]) =
        .ok [{ Title := "Drafts".toList, Date := "2024-01-15".toList, Author := [],
               Content := [], FileName := "2024-01-15-drafts.md".toList }] :=
  ⟨by decide, rfl⟩

/-! ## When front matter is extracted -/

theorem getElem?_drop_one (ls : List Str) (j : Nat) : (ls.drop 1)[j]? = ls[j + 1]? := by
  rw [List.getElem?_drop, Nat.add_comm]

/-- C10 (amended): front matter is extracted, with closing delimiter at line `e`, if and
only if the content starts with the three characters `---` (the rest of the first line is
not looked at), line `e`, a line after the first, is `---` after trimming white space, and
no line between the first and line `e` is; the text handed on is then what follows line
`e`, and the whole content when nothing is extracted. -/
theorem front_matter_extracted_iff (content : Str) (e : Nat) :
    (frontMatterEnd content = some e ↔
      hasPrefix content "---".toList = true ∧ 1 ≤ e ∧
        (∃ l, (split content '\n')[e]? = some l ∧ trimSpace l = "---".toList) ∧
        ∀ j l, 1 ≤ j → j < e → (split content '\n')[j]? = some l →
          trimSpace l ≠ "---".toList) ∧
      (frontMatterEnd content = some e →
        (parseFrontMatter content).2.2 = join ((split content '\n').drop (e + 1)) "\n".toList) ∧
      (frontMatterEnd content = none → parseFrontMatter content = ([], [], content)) := by
  refine ⟨?_, ?_, parseFrontMatter_none⟩
  · unfold frontMatterEnd
    by_cases hp : hasPrefix content "---".toList = true
    · rw [if_pos hp, findEnd_some_iff]
      show _ ↔ _
      simp only [hp, true_and]
      have hsp : splitN content '\n' (-1) = split content '\n' := rfl
      rw [hsp]
      constructor
      · rintro ⟨h1, ⟨l, h2, h3⟩, h4⟩
        refine ⟨h1, ⟨l, ?_, h3⟩, ?_⟩
        · rw [getElem?_drop_one] at h2
          have : e - 1 + 1 = e := by omega
          rw [this] at h2; exact h2
        · intro j l₁ hj1 hje hl
          apply h4 (j - 1) l₁ (by omega)
          rw [getElem?_drop_one]
          have : j - 1 + 1 = j := by omega
          rw [this]; exact hl
      · rintro ⟨h1, ⟨l, h2, h3⟩, h4⟩
        refine ⟨h1, ⟨l, ?_, h3⟩, ?_⟩
        · rw [getElem?_drop_one]
          have : e - 1 + 1 = e := by omega
          rw [this]; exact h2
        · intro j l₁ hj hl
          rw [getElem?_drop_one] at hl
          exact h4 (j + 1) l₁ (by omega) (by omega) hl
    · rw [if_neg hp]
      constructor
      · intro h; cases h
      · rintro ⟨h, _⟩; exact absurd h hp
  · intro h
    rw [parseFrontMatter_some h]
    rfl

set_option maxRecDepth 100000 in
/-- C10, as stated, fails: the first line of `---x`, `---`, `body` is `---x`, not `---`,
yet front matter is extracted, with line 1 as closing delimiter, and only `body` is handed
on. -/
theorem loose_opening_line_extracted :
    firstLineIsDelimiter "---x\n---\nbody".toList = false ∧
      frontMatterEnd "---x\n---\nbody".toList = some 1 ∧
      parseFrontMatter "---x\n---\nbody".toList = ([], [], "body".toList) := by
  decide

end Blog
